import Mathlib

/-!
Verification of the relay BitTorrent client engine (Go sources) against its
natural-language specification.  Each Go function named in a claim is embedded
as an executable Lean definition operating on explicit state; byte strings are
lists of naturals (one per byte), Go int64 values are Int with explicit
reduction modulo 2 ^ 64 or 2 ^ 32 where the source converts or can overflow.
-/

namespace Relay

namespace Bencode

/-- Bencoded values as produced by the Go codec: signed 64-bit integers, byte
strings, sequences, and string-keyed mappings.  A Go map (unordered, unique
keys) is embedded as an association list whose order is the (irrelevant)
insertion order. -/
inductive BValue : Type where
  | int (n : Int)
  | str (s : List Nat)
  | list (xs : List BValue)
  | dict (kvs : List (List Nat × BValue))

mutual

def decEqBValue : (a b : BValue) → Decidable (a = b)
  | .int x, .int y => decidable_of_iff (x = y) (by simp)
  | .str x, .str y => decidable_of_iff (x = y) (by simp)
  | .list xs, .list ys =>
    match decEqBListV xs ys with
    | isTrue h => isTrue (by simp [h])
    | isFalse h => isFalse (by simp [h])
  | .dict xs, .dict ys =>
    match decEqBPairsV xs ys with
    | isTrue h => isTrue (by simp [h])
    | isFalse h => isFalse (by simp [h])
  | .int _, .str _ => isFalse (by simp)
  | .int _, .list _ => isFalse (by simp)
  | .int _, .dict _ => isFalse (by simp)
  | .str _, .int _ => isFalse (by simp)
  | .str _, .list _ => isFalse (by simp)
  | .str _, .dict _ => isFalse (by simp)
  | .list _, .int _ => isFalse (by simp)
  | .list _, .str _ => isFalse (by simp)
  | .list _, .dict _ => isFalse (by simp)
  | .dict _, .int _ => isFalse (by simp)
  | .dict _, .str _ => isFalse (by simp)
  | .dict _, .list _ => isFalse (by simp)
termination_by a _ => sizeOf a

def decEqBListV : (xs ys : List BValue) → Decidable (xs = ys)
  | [], [] => isTrue rfl
  | [], _ :: _ => isFalse (by simp)
  | _ :: _, [] => isFalse (by simp)
  | x :: xs, y :: ys =>
    match decEqBValue x y with
    | isFalse h => isFalse (by simp [h])
    | isTrue h =>
      match decEqBListV xs ys with
      | isTrue h2 => isTrue (by simp [h, h2])
      | isFalse h2 => isFalse (by simp [h2])
termination_by xs _ => sizeOf xs

def decEqBPairsV : (xs ys : List (List Nat × BValue)) → Decidable (xs = ys)
  | [], [] => isTrue rfl
  | [], _ :: _ => isFalse (by simp)
  | _ :: _, [] => isFalse (by simp)
  | (k, v) :: xs, (k2, v2) :: ys =>
    if hk : k = k2 then
      match decEqBValue v v2 with
      | isFalse h => isFalse (by simp [h])
      | isTrue h =>
        match decEqBPairsV xs ys with
        | isTrue h2 => isTrue (by simp [hk, h, h2])
        | isFalse h2 => isFalse (by simp [h2])
    else isFalse (by simp [hk])
termination_by xs _ => sizeOf xs

end

instance : DecidableEq BValue := decEqBValue

/-- Bytes of a string literal, used to write concrete byte strings readably. -/
def strBytes (s : String) : List Nat := s.toList.map Char.toNat

instance instDecEqExcept {ε α : Type} [DecidableEq ε] [DecidableEq α] :
    DecidableEq (Except ε α)
  | .error e, .error f => decidable_of_iff (e = f) (by simp)
  | .ok a, .ok b => decidable_of_iff (a = b) (by simp)
  | .error _, .ok _ => isFalse (by simp)
  | .ok _, .error _ => isFalse (by simp)

/-- Decimal digits with explicit recursion fuel (n + 1 is always enough,
since n / 10 < n for n > 0); structural recursion keeps every use of the
codec computable by the kernel. -/
def natDigitsF : Nat → Nat → List Nat
  | 0, _ => []
  | fuel + 1, n =>
    if n < 10 then [48 + n] else natDigitsF fuel (n / 10) ++ [48 + n % 10]

/-- Decimal digits of a natural number, most significant first, as ASCII
bytes (the digits produced by strconv.FormatInt / strconv.Itoa). -/
def natDigits (n : Nat) : List Nat := natDigitsF (n + 1) n

/-- strconv.FormatInt(n, 10): optional minus sign then decimal digits. -/
def intDecimal (n : Int) : List Nat :=
  if n < 0 then 45 :: natDigits (-n).toNat else natDigits n.toNat

/-- Go string comparison a <= b (lexicographic on raw bytes), the order used
by sort.Strings. -/
def keyLeB : List Nat → List Nat → Bool
  | [], _ => true
  | _ :: _, [] => false
  | a :: as, b :: bs =>
    if a < b then true else if b < a then false else keyLeB as bs

/-- Go string comparison a < b (strict lexicographic on raw bytes). -/
def keyLtB : List Nat → List Nat → Bool
  | [], [] => false
  | [], _ :: _ => true
  | _ :: _, [] => false
  | a :: as, b :: bs =>
    if a < b then true else if b < a then false else keyLtB as bs

/-- One insertion step of the sort performed by sort.Strings in
Marshaller.marshalDict, carried out on key-value pairs (a Go map has unique
keys, so sorting the pairs by key is the same as sorting the keys and looking
each one up). -/
def insertPair (p : List Nat × BValue) :
    List (List Nat × BValue) → List (List Nat × BValue)
  | [] => [p]
  | q :: qs => if keyLeB p.1 q.1 then p :: q :: qs else q :: insertPair p qs

/-- The key-sorted pair list over which marshalDict emits its output. -/
def sortPairs : List (List Nat × BValue) → List (List Nat × BValue)
  | [] => []
  | p :: ps => insertPair p (sortPairs ps)

/-- Marshaller.marshalString: <decimal length>:<bytes>. -/
def marshalString (s : List Nat) : List Nat :=
  natDigits s.length ++ [58] ++ s

mutual

/-- Marshaller.Marshal restricted to the supported value domain.  NOTE: the
integer case faithfully reproduces the source, which writes "i" and the
decimal digits but NO terminating "e" (marshalInteger writes
"i" + FormatInt(val, 10) only). -/
def marshal : BValue → List Nat
  | .int n => 105 :: intDecimal n
  | .str s => marshalString s
  | .list xs => 108 :: marshalItems xs ++ [101]
  | .dict kvs => 100 :: marshalPairs (sortPairs kvs) ++ [101]
termination_by v => sizeOf v
decreasing_by
  all_goals simp_wf
  all_goals
    have hins : ∀ (p : List Nat × BValue) (l : List (List Nat × BValue)),
        sizeOf (insertPair p l) = 1 + sizeOf p + sizeOf l := by
      intro p l
      induction l with
      | nil => simp [insertPair]
      | cons q qs ih =>
        simp only [insertPair]
        split
        · simp [List.cons.sizeOf_spec]
        · simp [List.cons.sizeOf_spec, ih]; omega
  all_goals
    have hsort : ∀ l : List (List Nat × BValue),
        sizeOf (sortPairs l) = sizeOf l := by
      intro l
      induction l with
      | nil => rfl
      | cons p ps ih => simp [sortPairs, hins, ih]
  all_goals first
  | omega
  | (rw [hsort]; omega)

/-- Marshaller.marshalList body: each element in order. -/
def marshalItems : List BValue → List Nat
  | [] => []
  | x :: xs => marshal x ++ marshalItems xs
termination_by xs => sizeOf xs
decreasing_by
  all_goals simp_wf <;> omega

/-- Marshaller.marshalDict body: for each key (ascending), the encoded key
then the encoded value. -/
def marshalPairs : List (List Nat × BValue) → List Nat
  | [] => []
  | (k, v) :: rest => marshalString k ++ marshal v ++ marshalPairs rest
termination_by l => sizeOf l
decreasing_by
  all_goals simp_wf <;> omega

end

/-- Decoder errors.  eof covers io.EOF / io.ErrUnexpectedEOF (end of stream
before a value, a delimiter, or a full string payload); parseFail covers
strconv.ParseInt syntax errors; rangeFail its int64 range errors; negLength
is the "invalid string, negative length" error. -/
inductive DErr : Type where
  | eof
  | parseFail
  | rangeFail
  | negLength
deriving DecidableEq

/-- bufio.Reader.ReadBytes(delim): the bytes before the first delimiter and
the rest of the stream after it; io.EOF error when the delimiter is missing
(Unmarshaller.readInteger checks the error before using the data, so the
partial read is dropped). -/
def readBytesTo (delim : Nat) : List Nat → Except DErr (List Nat × List Nat)
  | [] => .error .eof
  | b :: rest =>
    if b = delim then .ok ([], rest)
    else
      match readBytesTo delim rest with
      | .ok (content, r) => .ok (b :: content, r)
      | .error e => .error e

/-- Accumulate ASCII decimal digits; none on any non-digit byte. -/
def parseDigits (acc : Nat) : List Nat → Option Nat
  | [] => some acc
  | d :: ds =>
    if 48 ≤ d ∧ d ≤ 57 then parseDigits (acc * 10 + (d - 48)) ds else none

/-- strconv.ParseInt(s, 10, 64): optional sign, one or more decimal digits,
value within int64 range. -/
def parseInt64 (s : List Nat) : Except DErr Int :=
  match s with
  | [] => .error .parseFail
  | c :: rest =>
    let signed : Bool × List Nat :=
      if c = 45 then (true, rest) else if c = 43 then (false, rest) else (false, s)
    match parseDigits 0 signed.2 with
    | none => .error .parseFail
    | some m =>
      if signed.2 = [] then .error .parseFail
      else
        let v : Int := if signed.1 then -(m : Int) else (m : Int)
        if v < -(2 ^ 63) ∨ (2 ^ 63) ≤ v then .error .rangeFail else .ok v

/-- Unmarshaller.readInteger(delim): ReadBytes to the delimiter, then
ParseInt on the bytes before it. -/
def readInteger (delim : Nat) (s : List Nat) : Except DErr (Int × List Nat) :=
  match readBytesTo delim s with
  | .error e => .error e
  | .ok (content, r) =>
    match parseInt64 content with
    | .error e => .error e
    | .ok n => .ok (n, r)

/-- Unmarshaller.unmarshalString: length to the colon, then exactly that many
raw bytes; a zero length yields the empty string before the negative-length
check, mirroring the source order. -/
def unmarshalStringV (s : List Nat) : Except DErr (List Nat × List Nat) :=
  match readInteger 58 s with
  | .error e => .error e
  | .ok (size, r) =>
    if size = 0 then .ok ([], r)
    else if size < 0 then .error .negLength
    else if r.length < size.toNat then .error .eof
    else .ok (r.take size.toNat, r.drop size.toNat)

/-- Go map assignment dict[k] = v on the association-list embedding: replace
the value at an existing key, otherwise append. -/
def mapInsert (k : List Nat) (v : BValue) :
    List (List Nat × BValue) → List (List Nat × BValue)
  | [] => [(k, v)]
  | (k2, v2) :: rest =>
    if k = k2 then (k, v) :: rest else (k2, v2) :: mapInsert k v rest

mutual

/-- Unmarshaller.Unmarshal: dispatch on the first byte; i → integer,
d → dictionary, l → list, anything else is unread and parsed as a string.
The fuel argument only bounds the recursion depth; the top-level entry point
supplies more fuel than one byte per nested value can consume. -/
def unmarshalV : Nat → List Nat → Except DErr (BValue × List Nat)
  | 0, _ => .error .eof
  | _ + 1, [] => .error .eof
  | fuel + 1, c :: rest =>
    if c = 105 then
      match readInteger 101 rest with
      | .error e => .error e
      | .ok (n, r) => .ok (.int n, r)
    else if c = 100 then
      match unmarshalDictV fuel rest [] with
      | .error e => .error e
      | .ok (kvs, r) => .ok (.dict kvs, r)
    else if c = 108 then
      match unmarshalListV fuel rest with
      | .error e => .error e
      | .ok (vs, r) => .ok (.list vs, r)
    else
      match unmarshalStringV (c :: rest) with
      | .error e => .error e
      | .ok (str, r) => .ok (.str str, r)

/-- Unmarshaller.unmarshalList: peek; e terminates, otherwise unmarshal one
value and continue.  The Go loop appends to the end; building the head first
from the same element order produces the same list. -/
def unmarshalListV : Nat → List Nat → Except DErr (List BValue × List Nat)
  | 0, _ => .error .eof
  | _ + 1, [] => .error .eof
  | fuel + 1, c :: rest =>
    if c = 101 then .ok ([], rest)
    else
      match unmarshalV fuel (c :: rest) with
      | .error e => .error e
      | .ok (v, r) =>
        match unmarshalListV fuel r with
        | .error e => .error e
        | .ok (vs, r2) => .ok (v :: vs, r2)

/-- Unmarshaller.unmarshalDict: peek; e terminates, otherwise a string key
then a value, stored into the accumulated map with map-assignment semantics
(so a later duplicate key overwrites an earlier one, as in Go). -/
def unmarshalDictV : Nat → List Nat → List (List Nat × BValue) →
    Except DErr (List (List Nat × BValue) × List Nat)
  | 0, _, _ => .error .eof
  | _ + 1, [], _ => .error .eof
  | fuel + 1, c :: rest, acc =>
    if c = 101 then .ok (acc, rest)
    else
      match unmarshalStringV (c :: rest) with
      | .error e => .error e
      | .ok (key, r) =>
        match unmarshalV fuel r with
        | .error e => .error e
        | .ok (v, r2) => unmarshalDictV fuel r2 (mapInsert key v acc)

end

/-- One top-level Unmarshal call on a byte stream: returns the decoded value
and the remaining bytes.  The fuel bound length + 1 suffices because every
nested decoding step consumes at least one byte. -/
def Unmarshal (s : List Nat) : Except DErr (BValue × List Nat) :=
  unmarshalV (s.length + 1) s

/-- The sort.Strings order on key-value pairs, as a relation (for connecting
insertPair with the library ordered-insert lemmas). -/
def pairLe (p q : List Nat × BValue) : Prop := keyLeB p.1 q.1 = true

/-- Strict ascending raw-byte order on the keys of two pairs. -/
def pairLt (p q : List Nat × BValue) : Prop := keyLtB p.1 q.1 = true

instance : DecidableRel pairLe := fun _ _ => instDecidableEqBool _ _

instance : DecidableRel pairLt := fun _ _ => instDecidableEqBool _ _

end Bencode

namespace Torrent

/-- torrent.Block: descriptor of one block within a piece.  Data is nil until
downloaded.  The Go fields are ints; every reachable value is non-negative,
so they are embedded as Nat. -/
structure Block : Type where
  index : Nat
  offset : Nat
  length : Nat
  data : Option (List Nat)
deriving DecidableEq

/-- torrent.PieceState. -/
inductive PieceState : Type where
  | none
  | pending
  | complete
deriving DecidableEq

/-- torrent.Piece (the lock is concurrency plumbing with no sequential
content).  Requested embeds the map[int]bool as the list of keys currently
set to true; its keys are Int because MarkRequested accepts any int. -/
structure Piece : Type where
  index : Int
  length : Nat
  downloaded : Nat
  blocks : List Block
  state : PieceState
  requested : List Int
deriving DecidableEq

def BlockSize : Nat := 16 * 1024

/-- The block count computed at the top of NewPiece: length / BlockSize,
plus one for a final partial block. -/
def numBlocks (length : Nat) : Nat :=
  length / BlockSize + (if length % BlockSize ≠ 0 then 1 else 0)

/-- The length the NewPiece loop gives block i: BlockSize, except the last
block of a piece whose length is not a multiple of BlockSize. -/
def blockLen (length i : Nat) : Nat :=
  if i = numBlocks length - 1 ∧ length % BlockSize ≠ 0 then length % BlockSize
  else BlockSize

/-- The block descriptor the NewPiece loop builds at index i. -/
def blockAt (length i : Nat) : Block :=
  { index := i
    offset := i * BlockSize
    length := blockLen length i
    data := Option.none }

/-- torrent.NewPiece: split length bytes into BlockSize blocks, the last one
shorter when length is not a multiple of BlockSize.  Piece lengths come from
the torrent metainfo and are non-negative, so the constructor takes a Nat. -/
def NewPiece (index : Int) (length : Nat) : Piece :=
  { index := index
    length := length
    downloaded := 0
    blocks := (List.range (numBlocks length)).map (blockAt length)
    state := .none
    requested := [] }

/-- The map write p.Requested[blockIndex] = true. -/
def reqInsert (i : Int) (l : List Int) : List Int :=
  if i ∈ l then l else l ++ [i]

/-- Piece.MarkRequested.  The source bounds check is
blockIndex < 0 || blockIndex > len(p.Blocks) — note the strict >, which lets
blockIndex = len(p.Blocks) through. -/
def MarkRequested (p : Piece) (blockIndex : Int) : Piece :=
  if blockIndex < 0 ∨ blockIndex > (p.blocks.length : Int) then p
  else
    { p with
      requested := reqInsert blockIndex p.requested
      state := .pending }

/-- Piece.AddBlock loop body over the remaining blocks: find the first block
whose Begin equals begin; mismatched data length is an error there and then;
otherwise store the data.  Errors are reported as in the source. -/
inductive AddBlockErr : Type where
  | lengthMismatch (got expected : Nat)
  | noBlockFound (begin0 : Int)
deriving DecidableEq

def addBlockLoop (begin0 : Int) (data : List Nat) :
    List Block → Except AddBlockErr (List Block)
  | [] => .error (.noBlockFound begin0)
  | b :: bs =>
    if begin0 = (b.offset : Int) then
      if data.length ≠ b.length then .error (.lengthMismatch data.length b.length)
      else .ok ({ b with data := some data } :: bs)
    else
      match addBlockLoop begin0 data bs with
      | .error e => .error e
      | .ok bs2 => .ok (b :: bs2)

/-- Piece.AddBlock: on success the block stores the bytes and the downloaded
counter advances; the source returns every error before its first write, so
the error branch carries the piece unchanged. -/
def AddBlock (p : Piece) (begin0 : Int) (data : List Nat) :
    Piece × Option AddBlockErr :=
  match addBlockLoop begin0 data p.blocks with
  | .error e => (p, some e)
  | .ok bs =>
    ({ p with blocks := bs, downloaded := p.downloaded + data.length },
      Option.none)

/-- Piece.IsComplete. -/
def IsComplete (p : Piece) : Bool := p.length = p.downloaded

/-- copy(dst[offset:], src): Go copies min(len(dst) - offset, len(src))
bytes of src over dst starting at offset (offset ≤ len(dst) always holds at
the call sites reachable from NewPiece blocks). -/
def listCopyAt (dst : List Nat) (offset : Nat) (src : List Nat) : List Nat :=
  dst.take offset ++ src.take (dst.length - offset) ++ dst.drop (offset + src.length)

/-- Piece.AssembleData: nil unless complete, otherwise copy every non-nil
block payload at its offset into a fresh buffer of the piece length. -/
def AssembleData (p : Piece) : Option (List Nat) :=
  if ¬IsComplete p then Option.none
  else
    some <| p.blocks.foldl
      (fun buf b =>
        match b.data with
        | Option.none => buf
        | some d => listCopyAt buf b.offset d)
      (List.replicate p.length 0)

/-- Piece.NextRequest.  The source condition is
block.Data == nil || p.Requested[block.Index] → skip, so it skips every
block that has NO data and returns the first block that already has data and
is not yet marked requested. -/
def NextRequest (p : Piece) : Option Block × Piece :=
  match p.blocks.find? fun b =>
      !decide (b.data = Option.none ∨ (b.index : Int) ∈ p.requested) with
  | Option.none => (Option.none, p)
  | some b =>
    (some b, { p with requested := reqInsert (b.index : Int) p.requested })

/-- Deliver the payload of each listed block index to AddBlock in turn, each
at its block's begin offset; the Bool records whether every call succeeded
(the fold stops at the first error, like a caller checking AddBlock's
error). -/
def supplyAll (p : Piece) (payload : Nat → List Nat) : List Nat → Piece × Bool
  | [] => (p, true)
  | j :: rest =>
    match AddBlock p ((j * BlockSize : Nat) : Int) (payload j) with
    | (p2, Option.none) => supplyAll p2 payload rest
    | (p2, some _) => (p2, false)

/-- The piece NewPiece idx length evolves into once exactly the blocks listed
in ks have been supplied (ks as a set): block i of the piece carries
payload i when i is in ks, and the downloaded counter has advanced by each
stored payload length. -/
def suppliedPiece (index : Int) (length : Nat) (payload : Nat → List Nat)
    (ks : List Nat) : Piece :=
  { index := index
    length := length
    downloaded := (ks.map fun i => blockLen length i).sum
    blocks :=
      (List.range (numBlocks length)).map fun i =>
        { blockAt length i with
          data := if i ∈ ks then some (payload i) else Option.none }
    state := .none
    requested := [] }

/-- torrent.message: one peer-wire message; a keep-alive is the nil message,
embedded as Option.none at the call sites.  The Go id field is a uint8. -/
structure Message : Type where
  id : Nat
  payload : List Nat
deriving DecidableEq

/-- Runtime faults and read errors of the message codec. -/
inductive MsgErr : Type where
  | panicSliceBounds
  | panicIndexOutOfRange
  | eofRead
deriving DecidableEq

/-- binary.BigEndian.PutUint32: the four big-endian bytes of n (n < 2^32). -/
def be32 (n : Nat) : List Nat :=
  [n / 2 ^ 24 % 256, n / 2 ^ 16 % 256, n / 2 ^ 8 % 256, n % 256]

/-- message.marshal: length prefix uint32(len(payload) + 1), the id byte,
then the payload copied into the rest of a buffer of 4 + length bytes (both
computed in uint32 arithmetic, hence the explicit reductions mod 2 ^ 32).
When the buffer comes out shorter than 5 bytes — possible only for payloads
within 4 of 2 ^ 32 in length — the source panics slicing buf[0:4] or writing
buf[4]. -/
def marshalMessage : Option Message → Except MsgErr (List Nat)
  | Option.none => .ok [0, 0, 0, 0]
  | some m =>
    let length : Nat := (m.payload.length + 1) % 2 ^ 32
    let bufLen : Nat := (4 + length) % 2 ^ 32
    if bufLen < 4 then .error .panicSliceBounds
    else if bufLen < 5 then .error .panicIndexOutOfRange
    else
      let copied : Nat := min (bufLen - 5) m.payload.length
      .ok (be32 length ++ [m.id % 256] ++ m.payload.take copied ++
        List.replicate (bufLen - 5 - copied) 0)

/-- torrent.unmarshalMessage: read a big-endian uint32 length (4 bytes); 0 is
a keep-alive returning the nil message; otherwise read exactly length bytes,
the first of which is the id and the rest the payload. -/
def unmarshalMessage (s : List Nat) : Except MsgErr (Option Message × List Nat) :=
  match s with
  | b0 :: b1 :: b2 :: b3 :: rest =>
    let length : Nat := b0 * 2 ^ 24 + b1 * 2 ^ 16 + b2 * 2 ^ 8 + b3
    if length = 0 then .ok (Option.none, rest)
    else if rest.length < length then .error .eofRead
    else
      match rest.take length with
      | [] => .error .eofRead
      | idByte :: payload =>
        .ok (some { id := idByte, payload := payload }, rest.drop length)
  | _ => .error .eofRead

end Torrent

namespace Tracker

/-- tracker.Peer (ID omitted: compact decoding never sets it). -/
structure Peer : Type where
  ip : List Nat
  port : Nat
deriving DecidableEq

inductive TrackerErr : Type where
  | invalidCompactLength (n : Nat)
  | panicIndexOutOfRange
deriving DecidableEq

/-- binary.BigEndian.Uint16 of the two bytes at offset in peerData, and the
4-byte IP slice before them — the body the loop of parseCompactPeers tries
to execute for entry i. -/
def writePeer (peerData : List Nat) (peers : List Peer) (i : Nat) : List Peer :=
  let offset := i * 6
  peers.set i
    { ip := (peerData.drop offset).take 4
      port := ((peerData.drop (offset + 4)).headD 0) * 256 +
        ((peerData.drop (offset + 5)).headD 0) }

/-- The loop of parseCompactPeers, faithfully including its two defects: the
bound is i < len(peerData) (not numPeers), and peers was created with
length 0 (make([]*Peer, 0, numPeers)) and is never appended to, so the write
peers[i] panics with index out of range on the very first iteration whenever
peerData is non-empty.  (Even were the index in range, the element would be
a nil *Peer and the field write would panic; the index check fires first.) -/
def compactPeersLoop (peerData : List Nat) (peers : List Peer) (i : Nat) :
    Except TrackerErr (List Peer) :=
  if i < peerData.length then
    if i < peers.length then
      compactPeersLoop peerData (writePeer peerData peers i) (i + 1)
    else .error .panicIndexOutOfRange
  else .ok peers
termination_by peerData.length - i

/-- tracker.parseCompactPeers. -/
def parseCompactPeers (peerData : List Nat) : Except TrackerErr (List Peer) :=
  if peerData.length % 6 ≠ 0 then .error (.invalidCompactLength peerData.length)
  else compactPeersLoop peerData [] 0

/-- Go uint32(x) for an int64 x: two's-complement truncation, i.e. x mod
2 ^ 32.  parseTrackerResponse applies this to the bencoded interval when
populating AnnounceResponse.Interval. -/
def toUint32 (x : Int) : Nat := (x % (2 ^ 32)).toNat

end Tracker

namespace Session

/-- time.Durations are int64 nanosecond counts. -/
def nsPerSecond : Int := 1000000000

/-- relay.defaultAnnounceInterval = 30 * time.Minute. -/
def defaultAnnounceInterval : Int := 30 * 60 * nsPerSecond

/-- int64 two's-complement wraparound, applied where the source multiplies
durations. -/
def wrap64 (x : Int) : Int := (x + 2 ^ 63) % 2 ^ 64 - 2 ^ 63

/-- relay.managedTracker scheduling state (the tracker client handle carries
no sequential state). -/
structure ManagedTracker : Type where
  interval : Int
  nextAnnounceTime : Int
  failures : Int
  isAnnouncing : Bool
deriving DecidableEq

/-- The failure branch of session.announceToTracker: increment failures, then
push the next announce out by interval * (failures + 1) with the incremented
count. -/
def announceFailureUpdate (mt : ManagedTracker) (now : Int) : ManagedTracker :=
  { mt with
    failures := wrap64 (mt.failures + 1)
    nextAnnounceTime :=
      now + wrap64 (mt.interval * wrap64 (wrap64 (mt.failures + 1) + 1)) }

/-- The success branch of session.announceToTracker: reset failures, store
time.Duration(res.Interval) * time.Second — res.Interval being the uint32
the response parser produced — replaced by the default when non-positive,
and schedule now + interval.  Since res.Interval is unsigned, the stored
product is never negative and the clamp can only fire on zero. -/
def announceSuccessUpdate (mt : ManagedTracker) (now : Int) (respInterval : Nat) :
    ManagedTracker :=
  { mt with
    failures := 0
    interval :=
      if wrap64 (respInterval * nsPerSecond) ≤ 0 then defaultAnnounceInterval
      else wrap64 (respInterval * nsPerSecond)
    nextAnnounceTime :=
      now +
        (if wrap64 (respInterval * nsPerSecond) ≤ 0 then defaultAnnounceInterval
          else wrap64 (respInterval * nsPerSecond)) }

/-- One completed announce attempt against a managed tracker, as observed at
the session layer: a failed attempt, or a successful one whose bencoded
interval (an int64) passed through parseTrackerResponse's uint32 conversion. -/
def announceAttemptUpdate (mt : ManagedTracker) (now : Int) :
    Option Int → ManagedTracker
  | Option.none => announceFailureUpdate mt now
  | some trackerInterval =>
    announceSuccessUpdate mt now (Tracker.toUint32 trackerInterval)

end Session

namespace Metainfo

open Bencode

/-- Go map lookup data[key] on the association-list embedding of a decoded
bencode dictionary. -/
def dictLookup (data : List (List Nat × BValue)) (key : List Nat) : Option BValue :=
  match data.find? fun kv => kv.1 = key with
  | Option.none => Option.none
  | some kv => some kv.2

/-- parser.getString: the string value at key, or "" when the key is absent
or not a string. -/
def getString (data : List (List Nat × BValue)) (key : List Nat) : List Nat :=
  match dictLookup data key with
  | some (.str s) => s
  | _ => []

/-- The strings collected from announce-list by parseAnnounce: every string
element of every tier that is itself a list; non-list tiers and non-string
elements are silently skipped. -/
def announceListStrings (data : List (List Nat × BValue)) : List (List Nat) :=
  match dictLookup data (strBytes "announce-list") with
  | some (.list tiers) =>
    tiers.flatMap fun tier =>
      match tier with
      | .list urls =>
        urls.filterMap fun u =>
          match u with
          | .str s => some s
          | _ => Option.none
      | _ => []
  | _ => []

/-- Set insertion urls[s] = struct{}{} on the list embedding of the Go set
(the final iteration order of a Go map is arbitrary; only membership is
meaningful in the result). -/
def setInsert (s : List Nat) (l : List (List Nat)) : List (List Nat) :=
  if s ∈ l then l else l ++ [s]

/-- parser.parseAnnounce (internal/utils/utils.go:519-548): collect the
string URLs of announce-list into a set, add the announce value when it is a
non-empty string, and fail when the set ends up empty. -/
def parseAnnounce (data : List (List Nat × BValue)) :
    Except (List Nat) (List (List Nat)) :=
  let urls := (announceListStrings data).foldl (fun acc s => setInsert s acc) []
  let announce := getString data (strBytes "announce")
  let urls2 := if announce ≠ [] then setInsert announce urls else urls
  if urls2 = [] then .error (strBytes "no trackers found in announce or announce-list")
  else .ok urls2

/-- Modelled from the spec sentence of C5 only, for comparison with
parseAnnounce: the union of all string URLs in the tiers of announce-list
with the announce URL (membership is what matters; duplicates are
irrelevant). -/
def announceUnionSpec (data : List (List Nat × BValue)) : List (List Nat) :=
  announceListStrings data ++
    (match dictLookup data (strBytes "announce") with
      | some (.str s) => [s]
      | _ => [])

/-- The amended form of the C5 union: the announce value joins the union
only when it is a non-empty string (getString merges absent, non-string and
empty announce values into ""). -/
def announceUnionAmended (data : List (List Nat × BValue)) : List (List Nat) :=
  announceListStrings data ++
    (if getString data (strBytes "announce") ≠ [] then
      [getString data (strBytes "announce")]
    else [])

/-- The url set parseAnnounce materialises, written without the let bindings
so proofs can case on the announce string directly (parseAnnounce unfolds to
exactly this by zeta reduction). -/
def announceUrlSet (data : List (List Nat × BValue)) : List (List Nat) :=
  if getString data (strBytes "announce") ≠ [] then
    setInsert (getString data (strBytes "announce"))
      ((announceListStrings data).foldl (fun acc s => setInsert s acc) [])
  else (announceListStrings data).foldl (fun acc s => setInsert s acc) []

end Metainfo

end Relay

/-! Theorems.  Helper lemmas come first, then one theorem per claim (with a
counterexample and a witness where required). -/

namespace Relay

open Bencode Torrent Tracker Session Metainfo

theorem mem_setInsert (x : List Nat) (acc : List (List Nat)) (s : List Nat) :
    s ∈ setInsert x acc ↔ s ∈ acc ∨ s = x := by
  unfold setInsert
  split
  · rename_i hx
    constructor
    · exact fun h => Or.inl h
    · rintro (h | rfl) <;> assumption
  · simp [List.mem_append]

theorem mem_foldl_setInsert (xs : List (List Nat)) (acc : List (List Nat))
    (s : List Nat) :
    s ∈ xs.foldl (fun a x => setInsert x a) acc ↔ s ∈ acc ∨ s ∈ xs := by
  induction xs generalizing acc with
  | nil => simp
  | cons x xs ih =>
    simp only [List.foldl_cons, ih, mem_setInsert, List.mem_cons]
    tauto

theorem nodup_setInsert (x : List Nat) (acc : List (List Nat)) (h : acc.Nodup) :
    (setInsert x acc).Nodup := by
  unfold setInsert
  split
  · exact h
  · simp_all [List.nodup_append]

theorem nodup_foldl_setInsert (xs : List (List Nat)) (acc : List (List Nat))
    (h : acc.Nodup) : (xs.foldl (fun a x => setInsert x a) acc).Nodup := by
  induction xs generalizing acc with
  | nil => exact h
  | cons x xs ih => exact ih _ (nodup_setInsert _ _ h)

theorem parseAnnounce_eq (data : List (List Nat × BValue)) :
    parseAnnounce data =
      if announceUrlSet data = [] then
        .error (strBytes "no trackers found in announce or announce-list")
      else .ok (announceUrlSet data) := rfl

theorem mem_announceUrlSet (data : List (List Nat × BValue)) (s : List Nat) :
    s ∈ announceUrlSet data ↔ s ∈ announceUnionAmended data := by
  by_cases h : getString data (strBytes "announce") = []
  · simp [announceUrlSet, announceUnionAmended, h, mem_foldl_setInsert]
  · simp only [announceUrlSet, announceUnionAmended, h, ne_eq,
      not_false_eq_true, if_true, mem_setInsert, mem_foldl_setInsert,
      List.mem_append, List.mem_singleton, List.not_mem_nil, false_or]

theorem nodup_announceUrlSet (data : List (List Nat × BValue)) :
    (announceUrlSet data).Nodup := by
  unfold announceUrlSet
  split
  · exact nodup_setInsert _ _ (nodup_foldl_setInsert _ _ List.nodup_nil)
  · exact nodup_foldl_setInsert _ _ List.nodup_nil

/-- Claim C1 (code bug): Unmarshal after Marshal does NOT reproduce every
value built from integers, byte strings, sequences and mappings.  At the
integer 42 the encoder emits the three bytes "i42" with no terminating "e"
(see c2), and the decoder, searching for the terminator, hits end of stream
and fails, where the claim requires it to succeed with the value 42. -/
theorem c1_integer_roundtrip_fails_on_the_code :
    Unmarshal (marshal (.int 42)) = .error .eof := by
  have h : marshal (.int 42) = [105, 52, 50] := by
    simp only [marshal]; decide
  rw [h]; decide

/-- Claim C2 (code bug): Marshal of the integer 42 writes "i42", not the
claimed "i42e" — marshalInteger omits the terminating "e" entirely (the
repository's own TestMarshal expects "i42e"). -/
theorem c2_marshal_integer_omits_terminator :
    marshal (.int 42) = strBytes "i42" ∧ strBytes "i42" ≠ strBytes "i42e" := by
  refine ⟨?_, by decide⟩
  simp only [marshal]; decide

/-- Claim C3 (code bug): a 12-byte compact peer blob does not decode to two
peers — the loop writes through peers[i] on a slice created with length 0
(and iterates to len(peerData), not numPeers), so the code panics with an
index-out-of-range on any non-empty well-formed blob.  Only the rejection of
lengths that are not multiples of 6 behaves as claimed. -/
theorem c3_compact_peers_code_panics :
    parseCompactPeers [127, 0, 0, 1, 26, 225, 127, 0, 0, 1, 26, 226] =
      .error .panicIndexOutOfRange ∧
    parseCompactPeers [127, 0, 0, 1, 26] = .error (.invalidCompactLength 5) := by
  constructor
  · rw [parseCompactPeers]
    simp only [List.length_cons, List.length_nil]
    norm_num
    rw [compactPeersLoop]
    norm_num
  · rw [parseCompactPeers]
    norm_num

/-- Claim C4 (code bug): on a fresh two-block piece — where block 0 has no
data and is unrequested, exactly the block the claim says must be returned —
NextRequest returns no block and leaves the piece untouched: the source
keeps blocks with Data == nil instead of skipping blocks that already have
data (the condition is inverted). -/
theorem c4_next_request_skips_unfetched_blocks :
    NextRequest (NewPiece 0 32768) = (Option.none, NewPiece 0 32768) ∧
    (NewPiece 0 32768).blocks.head? =
      some { index := 0, offset := 0, length := 16384, data := Option.none } := by
  constructor <;> decide

/-- Claim C9 (code bug): MarkRequested with blockIndex = len(Blocks) — out of
range by the claim — is let through by the source's bounds check
(blockIndex > len(p.Blocks) instead of >=): on a one-block piece, index 1
marks a nonexistent block and flips the state to Pending, where the claim
requires both to stay unchanged.  Indices below 0 or above len(Blocks) are
ignored as claimed. -/
theorem c9_mark_requested_off_by_one :
    (NewPiece 0 16384).blocks.length = 1 ∧
    (NewPiece 0 16384).state = .none ∧
    (NewPiece 0 16384).requested = [] ∧
    (MarkRequested (NewPiece 0 16384) 1).state = .pending ∧
    (MarkRequested (NewPiece 0 16384) 1).requested = [1] ∧
    (MarkRequested (NewPiece 0 16384) 2).state = .none ∧
    (MarkRequested (NewPiece 0 16384) (-1)).state = .none := by
  refine ⟨by decide, by decide, by decide, by decide, by decide, by decide,
    by decide⟩

/-- Claim C5 counterexample: a torrent dictionary whose announce key holds
the empty string and which has no announce-list.  The claim's union contains
the empty-string URL, so it is non-empty and parsing should succeed; the
code drops an empty announce value and fails. -/
theorem c5_empty_announce_counterexample :
    parseAnnounce [(strBytes "announce", .str [])] =
      .error (strBytes "no trackers found in announce or announce-list") ∧
    announceUnionSpec [(strBytes "announce", .str [])] = [[]] := by
  constructor <;> decide

/-- Claim C5 as amended: the announce-URL set equals (as a set, with no
duplicates) the union of all string URLs in announce-list tiers with the
announce value when the latter is a non-empty string, and parsing fails
exactly when that union is empty. -/
theorem c5_announce_union_amended (data : List (List Nat × BValue)) :
    ((∃ l, parseAnnounce data = .ok l) ↔ announceUnionAmended data ≠ []) ∧
    (∀ l, parseAnnounce data = .ok l →
      l.Nodup ∧ ∀ s, s ∈ l ↔ s ∈ announceUnionAmended data) := by
  have hempty : announceUrlSet data = [] ↔ announceUnionAmended data = [] := by
    rw [List.eq_nil_iff_forall_not_mem, List.eq_nil_iff_forall_not_mem]
    constructor
    · exact fun h s hs => h s ((mem_announceUrlSet data s).mpr hs)
    · exact fun h s hs => h s ((mem_announceUrlSet data s).mp hs)
  rw [parseAnnounce_eq]
  constructor
  · constructor
    · rintro ⟨l, hl⟩
      split at hl
      · exact absurd hl (by simp)
      · rename_i hne
        exact fun hu => hne (hempty.mpr hu)
    · intro hu
      rw [if_neg (fun h => hu (hempty.mp h))]
      exact ⟨_, rfl⟩
  · intro l hl
    split at hl
    · exact absurd hl (by simp)
    · cases hl
      exact ⟨nodup_announceUrlSet data, mem_announceUrlSet data⟩

/-- Witness for c5_announce_union_amended at a concrete dictionary with one
announce-list tier and a distinct announce URL: the parse succeeds and its
result is the two-URL set. -/
theorem c5_announce_union_amended_witness :
    parseAnnounce
        [(Bencode.strBytes "announce-list",
            .list [.list [.str (Bencode.strBytes "http://a")]]),
          (Bencode.strBytes "announce", .str (Bencode.strBytes "http://b"))] =
      .ok [Bencode.strBytes "http://a", Bencode.strBytes "http://b"] ∧
    ([Bencode.strBytes "http://a", Bencode.strBytes "http://b"].Nodup ∧
      ∀ s, s ∈ [Bencode.strBytes "http://a", Bencode.strBytes "http://b"] ↔
        s ∈ announceUnionAmended
          [(Bencode.strBytes "announce-list",
              .list [.list [.str (Bencode.strBytes "http://a")]]),
            (Bencode.strBytes "announce", .str (Bencode.strBytes "http://b"))]) :=
  ⟨by decide, (c5_announce_union_amended _).2 _ (by decide)⟩

theorem wrap64_eq_self (x : Int) (h1 : -(2 ^ 63) ≤ x) (h2 : x < 2 ^ 63) :
    wrap64 x = x := by
  unfold wrap64
  omega

/-- Claim C6 counterexample: a successful announce whose tracker supplied the
interval -1.  The claim requires the stored interval to be replaced by the
default positive interval because the tracker returned a negative value; the
code instead converts the int64 to a uint32 first (parseTrackerResponse), so
-1 wraps to 4294967295 seconds (about 136 years), a positive value the
non-positivity clamp never touches. -/
theorem c6_negative_interval_counterexample :
    (announceAttemptUpdate
        { interval := defaultAnnounceInterval, nextAnnounceTime := 0,
          failures := 0, isAnnouncing := false } 0 (some (-1))).interval =
      4294967295 * nsPerSecond ∧
    4294967295 * nsPerSecond ≠ defaultAnnounceInterval := by
  constructor
  · show (announceSuccessUpdate _ 0 (toUint32 (-1))).interval = _
    have ht : toUint32 (-1) = 4294967295 := by decide
    rw [ht]
    unfold announceSuccessUpdate
    rw [wrap64_eq_self _ (by norm_num [nsPerSecond]) (by norm_num [nsPerSecond])]
    norm_num [nsPerSecond]
  · norm_num [nsPerSecond, defaultAnnounceInterval]

/-- Claim C6 as amended: after a completed announce attempt, on success the
failure count is 0, the stored interval is the tracker-supplied int64 reduced
to a uint32 (mod 2 ^ 32) in seconds — replaced by the default only when that
reduced value is zero, so negative intervals wrap to large positive ones
instead of being clamped — and the next announce is now + that interval; on
failure the count increments and the next announce is
now + interval × (failures + 1) with the incremented count, giving delays of
2×, 3× and 4× the 30-minute default interval for three consecutive failures
of a fresh tracker.  The overflow side conditions keep the int64 duration
arithmetic exact. -/
theorem c6_announce_scheduling_amended (mt : ManagedTracker) (now r : Int)
    (h1 : 0 ≤ mt.failures) (h2 : mt.failures + 2 < 2 ^ 63)
    (h3 : -(2 ^ 63) ≤ mt.interval * (mt.failures + 2))
    (h4 : mt.interval * (mt.failures + 2) < 2 ^ 63) :
    announceAttemptUpdate mt now Option.none =
      { mt with failures := mt.failures + 1,
                nextAnnounceTime := now + mt.interval * (mt.failures + 2) } ∧
    announceAttemptUpdate mt now (some r) =
      { mt with failures := 0,
                interval := if r % 2 ^ 32 = 0 then defaultAnnounceInterval
                  else (r % 2 ^ 32) * nsPerSecond,
                nextAnnounceTime := now +
                  (if r % 2 ^ 32 = 0 then defaultAnnounceInterval
                    else (r % 2 ^ 32) * nsPerSecond) } ∧
    (∀ t1 t2 t3 : Int, ∀ mt0 : ManagedTracker,
      mt0.interval = defaultAnnounceInterval → mt0.failures = 0 →
        (announceAttemptUpdate mt0 t1 Option.none).nextAnnounceTime =
          t1 + 2 * defaultAnnounceInterval ∧
        (announceAttemptUpdate (announceAttemptUpdate mt0 t1 Option.none) t2
            Option.none).nextAnnounceTime = t2 + 3 * defaultAnnounceInterval ∧
        (announceAttemptUpdate
            (announceAttemptUpdate (announceAttemptUpdate mt0 t1 Option.none) t2
              Option.none) t3 Option.none).nextAnnounceTime =
          t3 + 4 * defaultAnnounceInterval) := by
  have hcast : ((toUint32 r : Nat) : Int) = r % 2 ^ 32 := by
    unfold toUint32
    exact Int.toNat_of_nonneg (Int.emod_nonneg r (by norm_num))
  have hrange : 0 ≤ r % 2 ^ 32 ∧ r % 2 ^ 32 < 2 ^ 32 :=
    ⟨Int.emod_nonneg r (by norm_num), Int.emod_lt_of_pos r (by norm_num)⟩
  refine ⟨?_, ?_, ?_⟩
  · show announceFailureUpdate mt now = _
    unfold announceFailureUpdate
    rw [wrap64_eq_self (mt.failures + 1) (by omega) (by omega)]
    rw [show wrap64 (mt.failures + 1 + 1) = mt.failures + 2 by
      rw [show mt.failures + 1 + 1 = mt.failures + 2 by ring]
      exact wrap64_eq_self _ (by omega) (by omega)]
    rw [wrap64_eq_self _ h3 h4]
  · show announceSuccessUpdate mt now (toUint32 r) = _
    unfold announceSuccessUpdate
    have hprod : wrap64 ((toUint32 r : Nat) * nsPerSecond) =
        (r % 2 ^ 32) * nsPerSecond := by
      rw [show ((toUint32 r : Nat) : Int) * nsPerSecond =
        (r % 2 ^ 32) * nsPerSecond by rw [hcast]]
      refine wrap64_eq_self _ ?_ ?_
      · have h5 : (0 : Int) ≤ (r % 2 ^ 32) * nsPerSecond :=
          mul_nonneg hrange.1 (by norm_num [nsPerSecond])
        omega
      · unfold nsPerSecond
        nlinarith [hrange.1, hrange.2]
    have hcond : ((r % 2 ^ 32) * nsPerSecond ≤ 0) ↔ r % 2 ^ 32 = 0 := by
      constructor
      · intro h
        by_contra hq
        have hpos : 0 < (r % 2 ^ 32) * nsPerSecond :=
          mul_pos (lt_of_le_of_ne hrange.1 (Ne.symm hq)) (by norm_num [nsPerSecond])
        omega
      · intro h
        rw [h]
        norm_num
    rw [hprod]
    simp only [hcond]
  · intro t1 t2 t3 mt0 hint hfail
    show ((announceFailureUpdate mt0 t1).nextAnnounceTime = _) ∧
      ((announceFailureUpdate (announceFailureUpdate mt0 t1) t2).nextAnnounceTime = _) ∧
      ((announceFailureUpdate (announceFailureUpdate (announceFailureUpdate mt0 t1) t2)
          t3).nextAnnounceTime = _)
    unfold announceFailureUpdate
    simp only [hint, hfail]
    norm_num [wrap64, defaultAnnounceInterval, nsPerSecond]

/-- Witness for c6_announce_scheduling_amended: a fresh 30-minute tracker,
announce time 0, tracker interval 1800 s. -/
theorem c6_announce_scheduling_amended_witness :
    ((0 : Int) ≤ 0 ∧ (0 : Int) + 2 < 2 ^ 63 ∧
      -(2 ^ 63) ≤ defaultAnnounceInterval * (0 + 2) ∧
      defaultAnnounceInterval * (0 + 2) < 2 ^ 63) ∧
    announceAttemptUpdate
        { interval := defaultAnnounceInterval, nextAnnounceTime := 0,
          failures := 0, isAnnouncing := false } 0 (some 1800) =
      { interval := (1800 : Int) * nsPerSecond,
        nextAnnounceTime := (1800 : Int) * nsPerSecond,
        failures := 0, isAnnouncing := false } := by
  refine ⟨⟨le_refl 0, by norm_num,
    by norm_num [defaultAnnounceInterval, nsPerSecond],
    by norm_num [defaultAnnounceInterval, nsPerSecond]⟩, ?_⟩
  have h := (c6_announce_scheduling_amended
    { interval := defaultAnnounceInterval, nextAnnounceTime := 0,
      failures := 0, isAnnouncing := false } 0 1800
    (by norm_num) (by norm_num)
    (by norm_num [defaultAnnounceInterval, nsPerSecond])
    (by norm_num [defaultAnnounceInterval, nsPerSecond])).2.1
  rw [h]
  norm_num

theorem be32_decode (n : Nat) (h : n < 2 ^ 32) :
    n / 2 ^ 24 % 256 * 2 ^ 24 + n / 2 ^ 16 % 256 * 2 ^ 16 +
      n / 2 ^ 8 % 256 * 2 ^ 8 + n % 256 = n := by
  omega

/-- Claim C10 counterexample: a message whose payload is 2^32 - 1 bytes long.
uint32(len(payload) + 1) wraps to 0, the marshal buffer comes out 4 bytes
long, and the write buf[4] = id panics, so no bytes are produced and the
claimed round trip fails for this message. -/
theorem c10_marshal_huge_payload_counterexample :
    marshalMessage (some { id := 0, payload := List.replicate (2 ^ 32 - 1) 0 }) =
      .error .panicIndexOutOfRange := by
  have key : ∀ pl : List Nat, pl.length = 2 ^ 32 - 1 →
      marshalMessage (some { id := 0, payload := pl }) =
        .error .panicIndexOutOfRange := by
    intro pl hpl
    simp only [marshalMessage, hpl]
    norm_num
  exact key _ (List.length_replicate _ _)

/-- Claim C10 as amended: for every message whose id is a byte and whose
payload is shorter than 2^32 - 4 bytes (so the uint32 length arithmetic does
not wrap), marshal produces the length-prefixed frame and unmarshalMessage
inverts it exactly, consuming the whole frame; the nil keep-alive marshals to
four zero bytes and four zero bytes unmarshal to the nil message with no
error. -/
theorem c10_message_roundtrip_amended (id : Nat) (payload : List Nat)
    (hid : id < 256) (hlen : payload.length + 5 < 2 ^ 32) :
    marshalMessage (some { id := id, payload := payload }) =
      .ok (be32 (payload.length + 1) ++ id :: payload) ∧
    unmarshalMessage (be32 (payload.length + 1) ++ id :: payload) =
      .ok (some { id := id, payload := payload }, []) ∧
    marshalMessage Option.none = .ok [0, 0, 0, 0] ∧
    unmarshalMessage [0, 0, 0, 0] = .ok (Option.none, []) := by
  have h1 : (payload.length + 1) % 2 ^ 32 = payload.length + 1 :=
    Nat.mod_eq_of_lt (by omega)
  have h2 : (4 + (payload.length + 1)) % 2 ^ 32 = payload.length + 5 := by
    rw [show 4 + (payload.length + 1) = payload.length + 5 by ring]
    exact Nat.mod_eq_of_lt (by omega)
  refine ⟨?_, ?_, rfl, rfl⟩
  · simp only [marshalMessage, h1, h2]
    rw [if_neg (by omega), if_neg (by omega)]
    have hc : min (payload.length + 5 - 5) payload.length = payload.length := by
      omega
    rw [hc, List.take_length]
    rw [show payload.length + 5 - 5 - payload.length = 0 by omega]
    rw [List.replicate_zero, List.append_nil]
    rw [Nat.mod_eq_of_lt hid]
    rfl
  · show unmarshalMessage
      ((payload.length + 1) / 2 ^ 24 % 256 :: (payload.length + 1) / 2 ^ 16 % 256 ::
        (payload.length + 1) / 2 ^ 8 % 256 :: (payload.length + 1) % 256 ::
        (id :: payload)) = _
    simp only [unmarshalMessage]
    rw [be32_decode (payload.length + 1) (by omega)]
    rw [if_neg (by omega)]
    have hrl : (id :: payload).length = payload.length + 1 := by simp
    rw [if_neg (by rw [hrl]; omega)]
    have htake : (id :: payload).take (payload.length + 1) = id :: payload := by
      rw [← hrl, List.take_length]
    rw [htake]
    have hdrop : (id :: payload).drop (payload.length + 1) = [] := by
      rw [← hrl, List.drop_length]
    rw [hdrop]

/-- Witness for c10_message_roundtrip_amended: the piece-style message with
id 7 and a two-byte payload. -/
theorem c10_message_roundtrip_amended_witness :
    (7 < 256 ∧ ([9, 8] : List Nat).length + 5 < 2 ^ 32) ∧
    (marshalMessage (some { id := 7, payload := [9, 8] }) =
        .ok (be32 (([9, 8] : List Nat).length + 1) ++ 7 :: [9, 8]) ∧
      unmarshalMessage (be32 (([9, 8] : List Nat).length + 1) ++ 7 :: [9, 8]) =
        .ok (some { id := 7, payload := [9, 8] }, []) ∧
      marshalMessage Option.none = .ok [0, 0, 0, 0] ∧
      unmarshalMessage [0, 0, 0, 0] = .ok (Option.none, [])) :=
  ⟨⟨by decide, by decide⟩,
    c10_message_roundtrip_amended 7 [9, 8] (by decide) (by decide)⟩

theorem keyLeB_total : ∀ a b : List Nat, keyLeB a b = true ∨ keyLeB b a = true := by
  intro a
  induction a with
  | nil => intro b; left; rfl
  | cons x xs ih =>
    intro b
    cases b with
    | nil => right; rfl
    | cons y ys =>
      simp only [keyLeB]
      rcases Nat.lt_trichotomy x y with h | h | h
      · left; simp [h]
      · subst h
        rcases ih ys with h2 | h2
        · left; simp [h2]
        · right; simp [h2]
      · right; simp [h, Nat.not_lt.mpr (Nat.le_of_lt h)]

theorem keyLeB_trans : ∀ a b c : List Nat,
    keyLeB a b = true → keyLeB b c = true → keyLeB a c = true := by
  intro a
  induction a with
  | nil => intro b c _ _; rfl
  | cons x xs ih =>
    intro b c hab hbc
    cases b with
    | nil => simp [keyLeB] at hab
    | cons y ys =>
      cases c with
      | nil => simp [keyLeB] at hbc
      | cons z zs =>
        simp only [keyLeB] at hab hbc ⊢
        rcases Nat.lt_trichotomy x y with h1 | h1 | h1
        · rcases Nat.lt_trichotomy y z with h2 | h2 | h2
          · simp [Nat.lt_trans h1 h2]
          · subst h2; simp [h1]
          · simp [h2, Nat.not_lt.mpr (Nat.le_of_lt h2)] at hbc
        · subst h1
          rcases Nat.lt_trichotomy x z with h2 | h2 | h2
          · simp [h2]
          · subst h2
            simp only [lt_irrefl, if_false] at hab hbc ⊢
            exact ih _ _ hab hbc
          · simp [h2, Nat.not_lt.mpr (Nat.le_of_lt h2)] at hbc
        · simp [h1, Nat.not_lt.mpr (Nat.le_of_lt h1)] at hab

theorem keyLeB_antisymm : ∀ a b : List Nat,
    keyLeB a b = true → keyLeB b a = true → a = b := by
  intro a
  induction a with
  | nil =>
    intro b _ hba
    cases b with
    | nil => rfl
    | cons y ys => simp [keyLeB] at hba
  | cons x xs ih =>
    intro b hab hba
    cases b with
    | nil => simp [keyLeB] at hab
    | cons y ys =>
      simp only [keyLeB] at hab hba
      rcases Nat.lt_trichotomy x y with h1 | h1 | h1
      · simp [h1, Nat.not_lt.mpr (Nat.le_of_lt h1)] at hba
      · subst h1
        simp only [lt_irrefl, if_false] at hab hba
        rw [ih _ hab hba]
      · simp [h1, Nat.not_lt.mpr (Nat.le_of_lt h1)] at hab

theorem keyLtB_eq_not_keyLeB : ∀ a b : List Nat, keyLtB a b = !keyLeB b a := by
  intro a
  induction a with
  | nil =>
    intro b
    cases b with
    | nil => rfl
    | cons y ys => rfl
  | cons x xs ih =>
    intro b
    cases b with
    | nil => rfl
    | cons y ys =>
      simp only [keyLtB, keyLeB]
      rcases Nat.lt_trichotomy x y with h1 | h1 | h1
      · simp [h1, Nat.not_lt.mpr (Nat.le_of_lt h1)]
      · subst h1
        simp [ih ys]
      · simp [h1, Nat.not_lt.mpr (Nat.le_of_lt h1)]

theorem keyLtB_of_le_of_ne (a b : List Nat) (hle : keyLeB a b = true)
    (hne : a ≠ b) : keyLtB a b = true := by
  rw [keyLtB_eq_not_keyLeB]
  cases hba : keyLeB b a
  · rfl
  · exact absurd (keyLeB_antisymm a b hle hba) hne

theorem keyLtB_asymm (a b : List Nat) (h1 : keyLtB a b = true)
    (h2 : keyLtB b a = true) : False := by
  rw [keyLtB_eq_not_keyLeB] at h1 h2
  rcases keyLeB_total a b with h | h
  · rw [h] at h2; simp at h2
  · rw [h] at h1; simp at h1

theorem insertPair_eq_orderedInsert (p : List Nat × BValue)
    (l : List (List Nat × BValue)) :
    insertPair p l = l.orderedInsert pairLe p := by
  induction l with
  | nil => rfl
  | cons q qs ih =>
    simp only [insertPair, List.orderedInsert]
    split_ifs with h1
    · rfl
    · rename_i h2
      exact absurd h1 h2
    · rename_i h2
      exact absurd h2 h1
    · rw [ih]

theorem sortPairs_eq_insertionSort (l : List (List Nat × BValue)) :
    sortPairs l = l.insertionSort pairLe := by
  induction l with
  | nil => rfl
  | cons p ps ih =>
    simp only [sortPairs, List.insertionSort, ih, insertPair_eq_orderedInsert]

theorem sortPairs_perm (l : List (List Nat × BValue)) : (sortPairs l).Perm l := by
  rw [sortPairs_eq_insertionSort]
  exact List.perm_insertionSort pairLe l

theorem sortPairs_sorted (l : List (List Nat × BValue)) :
    List.Pairwise pairLe (sortPairs l) := by
  haveI : IsTotal (List Nat × BValue) pairLe :=
    ⟨fun p q => keyLeB_total p.1 q.1⟩
  haveI : IsTrans (List Nat × BValue) pairLe :=
    ⟨fun p q rr h1 h2 => keyLeB_trans p.1 q.1 rr.1 h1 h2⟩
  rw [sortPairs_eq_insertionSort]
  exact List.sorted_insertionSort pairLe l

theorem sortPairs_sorted_strict (l : List (List Nat × BValue))
    (hnodup : (l.map Prod.fst).Nodup) :
    List.Pairwise pairLt (sortPairs l) := by
  have hnd : ((sortPairs l).map Prod.fst).Nodup :=
    ((sortPairs_perm l).map Prod.fst).nodup_iff.mpr hnodup
  have hne : List.Pairwise (fun p q : List Nat × BValue => p.1 ≠ q.1)
      (sortPairs l) := (List.pairwise_map).mp hnd
  have hle := sortPairs_sorted l
  refine (hle.and hne).imp ?_
  rintro p q ⟨h1, h2⟩
  exact keyLtB_of_le_of_ne p.1 q.1 h1 h2

/-- Claim C8 (confirmed): Marshal of a mapping emits its key-value pairs
(after the "d" byte, before the "e" byte) in strictly ascending raw-byte
lexicographic key order — sortPairs is the emission order, it is a
permutation of the stored pairs, and its keys ascend strictly — and two
mappings that are permutations of one another (same pairs, different
insertion order) marshal to identical bytes. -/
theorem c8_dict_keys_sorted (kvs kvs2 : List (List Nat × BValue))
    (hperm : kvs.Perm kvs2) (hnodup : (kvs.map Prod.fst).Nodup) :
    marshal (.dict kvs) = 100 :: marshalPairs (sortPairs kvs) ++ [101] ∧
    List.Pairwise pairLt (sortPairs kvs) ∧
    (sortPairs kvs).Perm kvs ∧
    marshal (.dict kvs) = marshal (.dict kvs2) := by
  haveI : IsAntisymm (List Nat × BValue) pairLt :=
    ⟨fun p q h1 h2 => (keyLtB_asymm p.1 q.1 h1 h2).elim⟩
  have hsorteq : sortPairs kvs = sortPairs kvs2 := by
    refine List.eq_of_perm_of_sorted ?_ (sortPairs_sorted_strict kvs hnodup)
      (sortPairs_sorted_strict kvs2 ?_)
    · exact ((sortPairs_perm kvs).trans hperm).trans (sortPairs_perm kvs2).symm
    · exact (hperm.map Prod.fst).nodup_iff.mp hnodup
  refine ⟨by simp [marshal], sortPairs_sorted_strict kvs hnodup,
    sortPairs_perm kvs, ?_⟩
  simp only [marshal, hsorteq]

/-- Witness for c8_dict_keys_sorted: the two insertion orders of the mapping
from the repository's own bencode tests ("foo" → "bar", "bar" → "baz"). -/
theorem c8_dict_keys_sorted_witness :
    ([(strBytes "foo", BValue.str (strBytes "bar")),
        (strBytes "bar", BValue.str (strBytes "baz"))].Perm
      [(strBytes "bar", BValue.str (strBytes "baz")),
        (strBytes "foo", BValue.str (strBytes "bar"))] ∧
      ([(strBytes "foo", BValue.str (strBytes "bar")),
          (strBytes "bar", BValue.str (strBytes "baz"))].map Prod.fst).Nodup) ∧
    marshal (.dict [(strBytes "foo", BValue.str (strBytes "bar")),
        (strBytes "bar", BValue.str (strBytes "baz"))]) =
      marshal (.dict [(strBytes "bar", BValue.str (strBytes "baz")),
        (strBytes "foo", BValue.str (strBytes "bar"))]) :=
  ⟨⟨List.Perm.swap _ _ _, by decide⟩,
    (c8_dict_keys_sorted _ _ (List.Perm.swap _ _ _) (by decide)).2.2.2⟩

theorem length_le_numBlocks_mul (L : Nat) : L ≤ numBlocks L * BlockSize := by
  unfold numBlocks BlockSize
  split_ifs <;> omega

theorem offset_add_blockLen_le (L s : Nat) (hs : s < numBlocks L) :
    s * BlockSize + blockLen L s ≤ L := by
  unfold blockLen numBlocks BlockSize at *
  split_ifs at hs ⊢ <;> omega

theorem last_block_fills (L : Nat) (h : 0 < numBlocks L) :
    (numBlocks L - 1) * BlockSize + blockLen L (numBlocks L - 1) = L := by
  unfold blockLen numBlocks BlockSize at *
  split_ifs at h ⊢ <;> omega

theorem blockLen_of_not_last (L s : Nat) (hs : s + 1 < numBlocks L) :
    blockLen L s = BlockSize := by
  unfold blockLen numBlocks BlockSize at *
  split_ifs at hs ⊢ <;> omega

theorem blockLen_le_blockSize (L s : Nat) : blockLen L s ≤ BlockSize := by
  unfold blockLen BlockSize at *
  split_ifs <;> omega

theorem sum_blockLen (L : Nat) :
    ((List.range (numBlocks L)).map (blockLen L)).sum = L := by
  by_cases hr : L % BlockSize = 0
  · have hconst : (List.range (numBlocks L)).map (blockLen L) =
        List.replicate (numBlocks L) BlockSize := by
      rw [show (List.replicate (numBlocks L) BlockSize) =
        (List.range (numBlocks L)).map (fun _ => BlockSize) by simp [List.map_const]]
      apply List.map_congr_left
      intro i _
      unfold blockLen
      rw [if_neg]
      rintro ⟨_, hne⟩
      exact hne hr
    rw [hconst, List.sum_replicate, smul_eq_mul]
    unfold numBlocks BlockSize at *
    split_ifs <;> omega
  · have hn : numBlocks L = L / BlockSize + 1 := by
      unfold numBlocks
      rw [if_pos hr]
    rw [hn, List.range_succ, List.map_append, List.sum_append]
    have hhead : ((List.range (L / BlockSize)).map (blockLen L)).sum =
        (L / BlockSize) * BlockSize := by
      have hconst : (List.range (L / BlockSize)).map (blockLen L) =
          List.replicate (L / BlockSize) BlockSize := by
        rw [show (List.replicate (L / BlockSize) BlockSize) =
          (List.range (L / BlockSize)).map (fun _ => BlockSize) by
            simp [List.map_const]]
        apply List.map_congr_left
        intro i hi
        rw [List.mem_range] at hi
        exact blockLen_of_not_last L i (by rw [hn]; omega)
      rw [hconst, List.sum_replicate, smul_eq_mul]
    rw [hhead]
    have hlast : blockLen L (L / BlockSize) = L % BlockSize := by
      unfold blockLen
      rw [if_pos ⟨by rw [hn, Nat.add_sub_cancel], hr⟩]
    simp only [List.map_cons, List.map_nil, List.sum_cons, List.sum_nil, hlast]
    simp only [Nat.add_zero]
    exact Nat.div_add_mod' L BlockSize

theorem addBlockLoop_update (L : Nat) (payload : Nat → List Nat)
    (ks : List Nat) (j : Nat)
    (hlen : (payload j).length = blockLen L j) :
    ∀ k s, s ≤ j → j < s + k → j ∉ ks →
    addBlockLoop ((j * BlockSize : Nat) : Int) (payload j)
        ((List.range' s k).map fun i =>
          { blockAt L i with
            data := if i ∈ ks then some (payload i) else Option.none }) =
      .ok ((List.range' s k).map fun i =>
        { blockAt L i with
          data := if i ∈ j :: ks then some (payload i) else Option.none }) := by
  intro k
  induction k with
  | zero => intro s h1 h2 _; omega
  | succ k ih =>
    intro s h1 h2 hnotin
    rw [List.range'_succ]
    simp only [List.map_cons]
    by_cases hj : j = s
    · subst hj
      rw [addBlockLoop]
      rw [if_pos (by simp [blockAt])]
      rw [if_neg (by simp [blockAt, hlen])]
      have htail : (List.range' (j + 1) k).map
          (fun i => { blockAt L i with
            data := if i ∈ ks then some (payload i) else Option.none }) =
          (List.range' (j + 1) k).map
          (fun i => { blockAt L i with
            data := if i ∈ j :: ks then some (payload i) else Option.none }) := by
        apply List.map_congr_left
        intro i hi
        rw [List.mem_range'_1] at hi
        have hij : i ≠ j := by omega
        simp [List.mem_cons, hij]
      rw [htail]
      congr 1
      simp [blockAt, List.mem_cons, hnotin]
    · rw [addBlockLoop]
      rw [if_neg (by
        simp only [blockAt]
        intro hc
        have hmul : j * BlockSize = s * BlockSize := by exact_mod_cast hc
        have hB : 0 < BlockSize := by decide
        exact hj (Nat.eq_of_mul_eq_mul_right hB hmul))]
      rw [ih (s + 1) (by omega) (by omega) hnotin]
      have hhead : ({ blockAt L s with
          data := if s ∈ ks then some (payload s) else Option.none } : Block) =
          { blockAt L s with
            data := if s ∈ j :: ks then some (payload s) else Option.none } := by
        simp [List.mem_cons, Ne.symm hj]
      rw [hhead]

theorem addBlock_suppliedPiece (idx : Int) (L : Nat) (payload : Nat → List Nat)
    (ks : List Nat) (j : Nat) (hj : j < numBlocks L) (hnotin : j ∉ ks)
    (hlen : (payload j).length = blockLen L j) :
    AddBlock (suppliedPiece idx L payload ks) ((j * BlockSize : Nat) : Int)
        (payload j) =
      (suppliedPiece idx L payload (j :: ks), Option.none) := by
  unfold AddBlock suppliedPiece
  simp only
  rw [List.range_eq_range']
  rw [addBlockLoop_update L payload ks j hlen (numBlocks L) 0 (by omega)
    (by omega) hnotin]
  simp only [Prod.mk.injEq, and_true]
  congr 1
  simp only [List.map_cons, List.sum_cons]
  rw [hlen]
  exact Nat.add_comm _ _

theorem supplyAll_suppliedPiece (idx : Int) (L : Nat) (payload : Nat → List Nat) :
    ∀ (order : List Nat) (ks : List Nat), order.Nodup →
    (∀ j ∈ order, j < numBlocks L) →
    (∀ j ∈ order, j ∉ ks) →
    (∀ j ∈ order, (payload j).length = blockLen L j) →
    supplyAll (suppliedPiece idx L payload ks) payload order =
      (suppliedPiece idx L payload (order.reverse ++ ks), true) := by
  intro order
  induction order with
  | nil =>
    intro ks _ _ _ _
    simp [supplyAll]
  | cons j rest ih =>
    intro ks hnd hlt hdisj hlen
    rw [supplyAll]
    rw [addBlock_suppliedPiece idx L payload ks j (hlt j (by simp))
      (hdisj j (by simp)) (hlen j (by simp))]
    simp only
    rw [ih (j :: ks) (List.Nodup.of_cons hnd)
      (fun i hi => hlt i (List.mem_cons_of_mem j hi))
      (fun i hi => by
        rw [List.mem_cons, not_or]
        refine ⟨?_, hdisj i (List.mem_cons_of_mem j hi)⟩
        intro hij
        subst hij
        exact (List.nodup_cons.mp hnd).1 hi)
      (fun i hi => hlen i (List.mem_cons_of_mem j hi))]
    rw [List.reverse_cons, List.append_assoc]
    rfl

theorem assemble_fold (L : Nat) (payload : Nat → List Nat)
    (hlen : ∀ i, i < numBlocks L → (payload i).length = blockLen L i) :
    ∀ (k s : Nat) (buffer : List Nat), buffer.length = L → s + k = numBlocks L →
    List.foldl (fun buf (b : Block) =>
        match b.data with
        | Option.none => buf
        | some d => listCopyAt buf b.offset d)
      buffer ((List.range' s k).map fun i =>
        { blockAt L i with data := some (payload i) }) =
      buffer.take (s * BlockSize) ++ ((List.range' s k).map payload).flatten := by
  intro k
  induction k with
  | zero =>
    intro s buffer hbuf hsk
    simp only [List.range'_zero, List.map_nil, List.foldl_nil, List.flatten_nil,
      List.append_nil]
    rw [List.take_of_length_le]
    rw [hbuf]
    have hseq : s = numBlocks L := by omega
    subst hseq
    exact length_le_numBlocks_mul L
  | succ k ih =>
    intro s buffer hbuf hsk
    rw [List.range'_succ]
    simp only [List.map_cons, List.foldl_cons, List.flatten_cons]
    have hs : s < numBlocks L := by omega
    have hoff : s * BlockSize + blockLen L s ≤ L := offset_add_blockLen_le L s hs
    have hps : (payload s).length = blockLen L s := hlen s hs
    show List.foldl _ (listCopyAt buffer (blockAt L s).offset (payload s)) _ = _
    have hofs : (blockAt L s).offset = s * BlockSize := rfl
    rw [hofs]
    have hcopy : listCopyAt buffer (s * BlockSize) (payload s) =
        buffer.take (s * BlockSize) ++ payload s ++
          buffer.drop (s * BlockSize + (payload s).length) := by
      unfold listCopyAt
      have htk : (payload s).take (buffer.length - s * BlockSize) = payload s :=
        List.take_of_length_le (by rw [hbuf, hps]; omega)
      rw [htk]
    rw [hcopy]
    have hb2len : (buffer.take (s * BlockSize) ++ payload s ++
        buffer.drop (s * BlockSize + (payload s).length)).length = L := by
      simp only [List.length_append, List.length_take, List.length_drop, hbuf]
      rw [hps]
      have hsble : s * BlockSize ≤ L := by omega
      rw [Nat.min_eq_left hsble]
      omega
    rw [ih (s + 1) _ hb2len (by omega)]
    rw [← List.append_assoc]
    congr 1
    by_cases hlast : s + 1 = numBlocks L
    · have hk0 : k = 0 := by omega
      subst hk0
      have hfill : s * BlockSize + blockLen L s = L := by
        have hlb := last_block_fills L (by omega)
        rw [show numBlocks L - 1 = s by omega] at hlb
        exact hlb
      rw [List.take_of_length_le (by
        rw [hb2len, Nat.succ_mul]
        have hble := blockLen_le_blockSize L s
        omega)]
      rw [hps, hfill]
      rw [List.drop_eq_nil_of_le (by rw [hbuf])]
      rw [List.append_nil]
    · have hB : blockLen L s = BlockSize := blockLen_of_not_last L s (by omega)
      apply List.take_left'
      simp only [List.length_append, List.length_take, hbuf]
      rw [hps, hB]
      have hsble : s * BlockSize ≤ L := by
        have hq := hoff
        omega
      rw [Nat.min_eq_left hsble, Nat.succ_mul]

theorem newPiece_eq_suppliedPiece (idx : Int) (L : Nat) (payload : Nat → List Nat) :
    NewPiece idx L = suppliedPiece idx L payload [] := by
  unfold NewPiece suppliedPiece
  simp only [List.not_mem_nil, if_false, List.map_nil, List.sum_nil]
  congr 1

theorem addBlockLoop_mismatch (b : Int) (data : List Nat) :
    ∀ (blocks : List Block) (blk : Block),
    blocks.find? (fun x => decide (b = (x.offset : Int))) = some blk →
    data.length ≠ blk.length →
    addBlockLoop b data blocks =
      .error (.lengthMismatch data.length blk.length) := by
  intro blocks
  induction blocks with
  | nil => intro blk hfind _; simp [List.find?] at hfind
  | cons h t ih =>
    intro blk hfind hmm
    cases hc : decide (b = (h.offset : Int)) with
    | true =>
      simp only [List.find?_cons, hc] at hfind
      cases hfind
      rw [addBlockLoop, if_pos (of_decide_eq_true hc), if_pos hmm]
    | false =>
      simp only [List.find?_cons, hc] at hfind
      rw [addBlockLoop, if_neg (of_decide_eq_false hc), ih blk hfind hmm]

/-- Claim C7 (confirmed): for every piece built by NewPiece, supplying each
block exactly once via AddBlock at its begin offset with a payload of the
block's declared length, in any order, succeeds at every step; the resulting
piece reports complete and AssembleData returns exactly the concatenation of
the block payloads in offset order.  And an AddBlock whose data length
differs from the declared length of the block its begin offset locates (the
first block with that offset) reports that mismatch as an error and returns
the piece unchanged. -/
theorem c7_piece_completion :
    (∀ (idx : Int) (L : Nat) (payload : Nat → List Nat) (order : List Nat),
      order.Perm (List.range (numBlocks L)) →
      (∀ i, i < numBlocks L → (payload i).length = blockLen L i) →
      ∃ pf : Piece,
        supplyAll (NewPiece idx L) payload order = (pf, true) ∧
        Torrent.IsComplete pf = true ∧
        AssembleData pf =
          some (((List.range (numBlocks L)).map payload).flatten)) ∧
    (∀ (p : Piece) (b : Int) (data : List Nat) (blk : Block),
      p.blocks.find? (fun x => decide (b = (x.offset : Int))) = some blk →
      data.length ≠ blk.length →
      AddBlock p b data = (p, some (.lengthMismatch data.length blk.length))) := by
  constructor
  · intro idx L payload order hperm hlen
    have hnd : order.Nodup := hperm.nodup_iff.mpr (List.nodup_range _)
    have hlt : ∀ j ∈ order, j < numBlocks L := by
      intro j hj
      have hm := hperm.mem_iff.mp hj
      rwa [List.mem_range] at hm
    have hdl : ((order.reverse ++ []).map fun i => blockLen L i).sum = L := by
      rw [List.append_nil]
      have hp2 : (order.reverse.map fun i => blockLen L i).Perm
          ((List.range (numBlocks L)).map fun i => blockLen L i) :=
        ((order.reverse_perm).trans hperm).map _
      rw [hp2.sum_eq]
      exact sum_blockLen L
    have hcomp : Torrent.IsComplete (suppliedPiece idx L payload (order.reverse ++ [])) =
        true := by
      simp only [Torrent.IsComplete, suppliedPiece, hdl]
      simp
    refine ⟨suppliedPiece idx L payload (order.reverse ++ []), ?_, hcomp, ?_⟩
    · rw [newPiece_eq_suppliedPiece idx L payload]
      exact supplyAll_suppliedPiece idx L payload order [] hnd hlt
        (fun j _ => List.not_mem_nil j) (fun j hj => hlen j (hlt j hj))
    · have hmem : ∀ i, i ∈ order.reverse ++ [] ↔ i < numBlocks L := by
        intro i
        rw [List.append_nil, List.mem_reverse, hperm.mem_iff, List.mem_range]
      unfold AssembleData
      rw [if_neg (by rw [hcomp]; simp)]
      congr 1
      have hblocks : (suppliedPiece idx L payload (order.reverse ++ [])).blocks =
          (List.range' 0 (numBlocks L)).map fun i =>
            { blockAt L i with data := some (payload i) } := by
        show (List.range (numBlocks L)).map _ = _
        rw [List.range_eq_range']
        apply List.map_congr_left
        intro i hi
        rw [List.mem_range'_1] at hi
        rw [if_pos ((hmem i).mpr (by omega))]
      rw [hblocks]
      have hlenfield : (suppliedPiece idx L payload (order.reverse ++ [])).length =
          L := rfl
      rw [hlenfield]
      rw [assemble_fold L payload hlen (numBlocks L) 0 (List.replicate L 0)
        (by simp) (by omega)]
      simp [List.range_eq_range']
  · intro p b data blk hfind hmm
    unfold AddBlock
    rw [addBlockLoop_mismatch b data p.blocks blk hfind hmm]

/-- Witness for c7_piece_completion: a 16484-byte piece (one full 16384-byte
block plus a 100-byte final block) supplied in the order second block first,
and a mismatched 3-byte AddBlock at the second block's offset. -/
theorem c7_piece_completion_witness :
    (([1, 0] : List Nat).Perm (List.range (numBlocks 16484)) ∧
      (∀ i, i < numBlocks 16484 →
        ((fun i => if i = 0 then List.replicate 16384 1
          else List.replicate 100 2) i).length = blockLen 16484 i) ∧
      (NewPiece 0 16484).blocks.find?
          (fun x => decide ((16384 : Int) = (x.offset : Int))) =
        some { index := 1, offset := 16384, length := 100, data := Option.none } ∧
      ([1, 2, 3] : List Nat).length ≠ 100) ∧
    (∃ pf : Piece,
      supplyAll (NewPiece 0 16484)
          (fun i => if i = 0 then List.replicate 16384 1
            else List.replicate 100 2) [1, 0] = (pf, true) ∧
      Torrent.IsComplete pf = true ∧
      AssembleData pf = some (((List.range (numBlocks 16484)).map
        (fun i => if i = 0 then List.replicate 16384 1
          else List.replicate 100 2)).flatten)) ∧
    AddBlock (NewPiece 0 16484) 16384 [1, 2, 3] =
      (NewPiece 0 16484, some (.lengthMismatch 3 100)) := by
  have hlen : ∀ i, i < numBlocks 16484 →
      ((fun i => if i = 0 then List.replicate 16384 1
        else List.replicate 100 2) i).length = blockLen 16484 i := by
    intro i hi
    rw [show numBlocks 16484 = 2 from by decide] at hi
    rcases (by omega : i = 0 ∨ i = 1) with rfl | rfl
    · show (List.replicate 16384 1).length = blockLen 16484 0
      rw [List.length_replicate]
      decide
    · show (List.replicate 100 2).length = blockLen 16484 1
      rw [List.length_replicate]
      decide
  refine ⟨⟨by decide, hlen, by decide, by decide⟩, ?_, ?_⟩
  · exact c7_piece_completion.1 0 16484 _ [1, 0] (by decide) hlen
  · exact c7_piece_completion.2 (NewPiece 0 16484) 16384 [1, 2, 3]
      { index := 1, offset := 16384, length := 100, data := Option.none }
      (by decide) (by decide)

end Relay
